import Mathlib

/-!
Verification of the `clientmetric` package (util/clientmetric/clientmetric.go).

The package keeps a process-wide registry of named integer metrics and
encodes value changes into a compact logtail delta stream.  We embed the
package shallowly:

* Go `int64` values are `Int`, with wrap-around made explicit by `wrap64`.
* `time.Time` is a `Nat` (nanoseconds on the wall clock); the zero `Nat`
  plays the role of Go's zero `time.Time`.
* The package-level mutable variables (`metrics`, `numWireID`, `lastDelta`,
  `sortedDirty`, `sorted`) become the fields of `State`, and every exported
  operation becomes an explicit state-passing function.
* The Go map `metrics` becomes an association list in insertion order; the
  encoder's `for _, m := range metrics` loop visits it in list order
  (Go map iteration order is unspecified; each record is self-identifying,
  so no claim depends on the particular order, only on its fixity during
  one call).
* Registration panics (`Publish`, `NewUnpublished`) become `Except.error`.
-/

/-- Two to the sixty-third power, the magnitude bound of `int64`. -/
def int64Half : Int := 9223372036854775808

/-- Two to the sixty-fourth power. -/
def int64Mod : Int := 18446744073709551616

/-- Reduction of an integer into the `int64` range, the wrap-around
semantics of Go arithmetic on `int64`. -/
def wrap64 (x : Int) : Int := (x + int64Half) % int64Mod - int64Half

/-- Metric type: counter or gauge (Go `Type`, with `TypeGauge`/`TypeCounter`). -/
inductive MType where
  | gauge
  | counter
deriving DecidableEq

/-- One metric: atomically updated value plus the bookkeeping fields owned
by the registry lock (Go struct `Metric`). -/
structure Metric where
  v : Int
  name : String
  typ : MType
  wireID : Nat
  lastNamed : Nat
  lastLogVal : Int
deriving DecidableEq

/-- The package-level mutable state (the `var` block of the package). -/
structure State where
  metrics : List Metric
  numWireID : Nat
  lastDelta : Nat
  sortedDirty : Bool
  sorted : List String
deriving DecidableEq

/-- The initial, empty package state. -/
def initState : State :=
  { metrics := [], numWireID := 0, lastDelta := 0, sortedDirty := false, sorted := [] }

/-- Go `(*Metric).Add`: atomic add, wrapping as `int64` does. -/
def metricAdd (m : Metric) (n : Int) : Metric :=
  { m with v := wrap64 (m.v + n) }

/-- Go `(*Metric).Set`: atomic store of an `int64`. -/
def metricSet (m : Metric) (x : Int) : Metric :=
  { m with v := wrap64 x }

/-- Go `isIllegalMetricRune`. -/
def isIllegalMetricRune (r : Char) : Bool :=
  !(decide ('a' ≤ r) && decide (r ≤ 'z') ||
    decide ('A' ≤ r) && decide (r ≤ 'Z') ||
    decide ('0' ≤ r) && decide (r ≤ '9') ||
    decide (r = '_'))

/-- Go `NewUnpublished`: validates the name and builds a fresh metric; the
panic on an illegal name becomes `Except.error`. -/
def newUnpublished (name : String) (typ : MType) : Except String Metric :=
  if name = "" ∨ name.data.any isIllegalMetricRune then
    Except.error ("illegal metric name " ++ name)
  else
    Except.ok { v := 0, name := name, typ := typ, wireID := 0, lastNamed := 0, lastLogVal := 0 }

/-- Go `(*Metric).Publish`: inserts into the registry, marking the sorted
cache dirty; the panics become `Except.error`, leaving the state untouched. -/
def publish (m : Metric) (s : State) : Except String State :=
  if m.name = "" then Except.error "unnamed Metric"
  else if s.metrics.any (fun x => x.name = m.name) then
    Except.error ("duplicate metric " ++ m.name)
  else
    Except.ok { s with metrics := s.metrics ++ [m], sortedDirty := true }

/-- Go `NewCounter`/`NewGauge` (construct-then-register): `newUnpublished`
followed by `publish`. -/
def newMetricPub (name : String) (typ : MType) (s : State) : Except String State :=
  match newUnpublished name typ with
  | Except.error e => Except.error e
  | Except.ok m => publish m s

/-- The names of the registered metrics, in registry order. -/
def namesOf (l : List Metric) : List String := l.map (fun m => m.name)

/-- Name-ascending sort used by Go's `sort.Slice` call in `Metrics`. -/
def sortNames (l : List String) : List String :=
  List.insertionSort (fun a b => a ≤ b) l

/-- Go `Metrics` (the `List()` operation): returns the name-sorted view,
rebuilding the cache when dirty. -/
def metricsFn (s : State) : List String × State :=
  if s.sortedDirty then
    let ns := sortNames (namesOf s.metrics)
    (ns, { s with sortedDirty := false, sorted := ns })
  else
    (s.sorted, s)

/-- Go map-lookup `metrics[name]`, and the dereference of a `*Metric`
held by the sorted cache: the current metric registered under `n`. -/
def findMetric (s : State) (n : String) : Option Metric :=
  s.metrics.find? (fun m => m.name = n)

/-- Go `Add` applied through the registry to the metric named `n`. -/
def addByName (s : State) (n : String) (d : Int) : State :=
  { s with metrics := s.metrics.map (fun m => if m.name = n then metricAdd m d else m) }

/-- Go `Set` applied through the registry to the metric named `n`. -/
def setByName (s : State) (n : String) (x : Int) : State :=
  { s with metrics := s.metrics.map (fun m => if m.name = n then metricSet m x else m) }

/-- Go constant `metricLogNameFrequency` (4 hours), in nanoseconds. -/
def metricLogNameFrequency : Nat := 14400000000000

/-- Go constant `minMetricEncodeInterval` (15 seconds), in nanoseconds. -/
def minMetricEncodeInterval : Nat := 15000000000

/-- Zigzag mapping of a signed value, the `ux` computation inside Go's
`binary.PutVarint` for an `int64`. -/
def zigzag (v : Int) : Nat :=
  if 0 ≤ v then 2 * v.toNat else 2 * (-v).toNat - 1

/-- Base-128 continuation-bit bytes of an unsigned value, little-endian
(Go `binary.PutUvarint`), with explicit fuel. -/
def uvarintFuel : Nat → Nat → List Nat
  | 0, _ => []
  | f + 1, n => if n < 128 then [n] else (n % 128 + 128) :: uvarintFuel f (n / 128)

/-- The varint bytes of an unsigned value below 2^64: ten bytes of fuel
always suffice (128^10 = 2^70). -/
def uvarint (n : Nat) : List Nat := uvarintFuel 10 n

/-- Lowercase hexadecimal digit for a value below 16 (Go `encoding/hex`). -/
def hexDigitChar (n : Nat) : Char :=
  if n < 10 then Char.ofNat (48 + n) else Char.ofNat (87 + n)

/-- The two lowercase hexadecimal characters rendering one byte. -/
def hexBytePair (b : Nat) : List Char :=
  [hexDigitChar (b / 16), hexDigitChar (b % 16)]

/-- Go `(*deltaEncBuf).writeHexVarint`: the signed varint of `v`, each
byte rendered as two lowercase hexadecimal characters. -/
def writeHexVarint (v : Int) : String :=
  String.mk (((uvarint (zigzag v)).map hexBytePair).flatten)

/-- Go `(*deltaEncBuf).writeName`: a name record. -/
def writeName (name : String) : String :=
  "N" ++ writeHexVarint (Int.ofNat name.utf8ByteSize) ++ name

/-- Go `(*deltaEncBuf).writeValue`: an absolute-value record. -/
def writeValue (wireID : Nat) (v : Int) : String :=
  "S" ++ writeHexVarint (Int.ofNat wireID) ++ writeHexVarint v

/-- Go `(*deltaEncBuf).writeDelta`: an increment record. -/
def writeDelta (wireID : Nat) (v : Int) : String :=
  "I" ++ writeHexVarint (Int.ofNat wireID) ++ writeHexVarint v

/-- The body of the per-metric loop of `EncodeLogTailMetricsDelta`: given
the current time, one metric and the current `numWireID`, produce the
updated metric, the updated `numWireID`, and the record bytes this metric
contributes to the frame. -/
def encStep (now : Nat) (m : Metric) (numWireID : Nat) : Metric × Nat × String :=
  let val := m.v
  let delta := wrap64 (val - m.lastLogVal)
  if delta = 0 then (m, numWireID, "")
  else
    let wid := if m.wireID = 0 then numWireID + 1 else m.wireID
    let num2 := if m.wireID = 0 then numWireID + 1 else numWireID
    if m.lastNamed = 0 ∨ metricLogNameFrequency < now - m.lastNamed then
      ({ m with lastLogVal := val, wireID := wid, lastNamed := now }, num2,
        writeName m.name ++ writeValue wid val)
    else
      ({ m with lastLogVal := val, wireID := wid }, num2, writeDelta wid delta)

/-- The `for _, m := range metrics` loop of `EncodeLogTailMetricsDelta`,
threading `numWireID` and concatenating the emitted records. -/
def encList (now : Nat) : List Metric → Nat → List Metric × Nat × String
  | [], n => ([], n, "")
  | m :: ms, n =>
    let r := encStep now m n
    let rest := encList now ms r.2.1
    (r.1 :: rest.1, rest.2.1, r.2.2 ++ rest.2.2)

/-- Go `EncodeLogTailMetricsDelta`: rate-limit check, then the scan.
Returns the frame and the updated package state. -/
def encodeLogTailMetricsDelta (now : Nat) (s : State) : String × State :=
  if s.lastDelta ≠ 0 ∧ now - s.lastDelta < minMetricEncodeInterval then ("", s)
  else
    let r := encList now s.metrics s.numWireID
    (r.2.2, { s with metrics := r.1, numWireID := r.2.1, lastDelta := now })

/-- Textual name of a metric type in the Prometheus exposition. -/
def typeName : MType → String
  | MType.gauge => "gauge"
  | MType.counter => "counter"

/-- The two exposition lines `WritePrometheusExpositionFormat` prints for
one metric. -/
def promLine (m : Metric) : String :=
  "# TYPE " ++ m.name ++ " " ++ typeName m.typ ++ "\n" ++ m.name ++ " " ++ toString m.v ++ "\n"

/-- Go `WritePrometheusExpositionFormat`: iterates `Metrics()` and prints
the type line and value line of each metric; the written bytes are
returned as a string together with the state after the `Metrics()` call. -/
def writePrometheusExpositionFormat (s : State) : String × State :=
  let p := metricsFn s
  (String.join (p.1.map (fun n =>
    match findMetric p.2 n with
    | some m => promLine m
    | none => "")), p.2)

/-- A metric has a pending change: its value differs (as `int64`
subtraction) from the last logged value. -/
def pendingB (m : Metric) : Bool := wrap64 (m.v - m.lastLogVal) != 0

/-- A metric has a pending change and no wireID yet, so the encoder will
assign it a fresh wireID. -/
def pendingNewB (m : Metric) : Bool := pendingB m && (m.wireID == 0)

/-- Number of metrics in `l` that the encoder will assign fresh wireIDs. -/
def countNew (l : List Metric) : Nat := l.countP pendingNewB

/-- The operations a client of the package can perform, for reasoning
about all reachable package states. -/
inductive Op where
  | publishOp (name : String) (typ : MType)
  | addOp (name : String) (d : Int)
  | setOp (name : String) (x : Int)
  | listOp
  | encodeOp (now : Nat)
  | promOp

/-- State transition of one operation (a failed registration leaves the
state unchanged, as the Go panic fires before any mutation). -/
def applyOp (s : State) : Op → State
  | Op.publishOp name typ =>
    match newMetricPub name typ s with
    | Except.ok s2 => s2
    | Except.error _ => s
  | Op.addOp name d => addByName s name d
  | Op.setOp name x => setByName s name x
  | Op.listOp => (metricsFn s).2
  | Op.encodeOp now => (encodeLogTailMetricsDelta now s).2
  | Op.promOp => (writePrometheusExpositionFormat s).2

/-- The state reached from the initial state by a sequence of operations. -/
def run (ops : List Op) : State := ops.foldl applyOp initState

theorem encStep_num (now : Nat) (m : Metric) (n : Nat) :
    (encStep now m n).2.1 = if pendingNewB m then n + 1 else n := by
  unfold encStep pendingNewB pendingB
  by_cases h0 : wrap64 (m.v - m.lastLogVal) = 0
  · simp [h0]
  · by_cases hw : m.wireID = 0
    · by_cases hn : m.lastNamed = 0 ∨ metricLogNameFrequency < now - m.lastNamed <;>
        simp [h0, hw, hn]
    · by_cases hn : m.lastNamed = 0 ∨ metricLogNameFrequency < now - m.lastNamed <;>
        simp [h0, hw, hn]

theorem encStep_name (now : Nat) (m : Metric) (n : Nat) :
    (encStep now m n).1.name = m.name := by
  unfold encStep
  by_cases h0 : wrap64 (m.v - m.lastLogVal) = 0
  · simp [h0]
  · by_cases hn : m.lastNamed = 0 ∨ metricLogNameFrequency < now - m.lastNamed <;>
      simp [h0, hn]

theorem encStep_typ (now : Nat) (m : Metric) (n : Nat) :
    (encStep now m n).1.typ = m.typ := by
  unfold encStep
  by_cases h0 : wrap64 (m.v - m.lastLogVal) = 0
  · simp [h0]
  · by_cases hn : m.lastNamed = 0 ∨ metricLogNameFrequency < now - m.lastNamed <;>
      simp [h0, hn]

theorem encStep_wireID (now : Nat) (m : Metric) (n : Nat) :
    (encStep now m n).1.wireID = if pendingNewB m then n + 1 else m.wireID := by
  unfold encStep pendingNewB pendingB
  by_cases h0 : wrap64 (m.v - m.lastLogVal) = 0
  · simp [h0]
  · by_cases hw : m.wireID = 0
    · by_cases hn : m.lastNamed = 0 ∨ metricLogNameFrequency < now - m.lastNamed <;>
        simp [h0, hw, hn]
    · by_cases hn : m.lastNamed = 0 ∨ metricLogNameFrequency < now - m.lastNamed <;>
        simp [h0, hw, hn]

theorem encStep_lastLogVal (now : Nat) (m : Metric) (n : Nat) :
    (encStep now m n).1.lastLogVal = if pendingB m then m.v else m.lastLogVal := by
  unfold encStep pendingB
  by_cases h0 : wrap64 (m.v - m.lastLogVal) = 0
  · simp [h0]
  · by_cases hn : m.lastNamed = 0 ∨ metricLogNameFrequency < now - m.lastNamed <;>
      simp [h0, hn]

theorem encList_nil (now : Nat) (n : Nat) : encList now [] n = ([], n, "") := rfl

theorem encList_cons (now : Nat) (m : Metric) (ms : List Metric) (n : Nat) :
    encList now (m :: ms) n =
      ((encStep now m n).1 :: (encList now ms (encStep now m n).2.1).1,
       (encList now ms (encStep now m n).2.1).2.1,
       (encStep now m n).2.2 ++ (encList now ms (encStep now m n).2.1).2.2) := rfl

theorem encList_length (now : Nat) :
    ∀ (ms : List Metric) (n : Nat), (encList now ms n).1.length = ms.length := by
  intro ms
  induction ms with
  | nil => intro n; rfl
  | cons m ms ih => intro n; simp [encList_cons, ih]

theorem encList_num (now : Nat) :
    ∀ (ms : List Metric) (n : Nat), (encList now ms n).2.1 = n + countNew ms := by
  intro ms
  induction ms with
  | nil => intro n; simp [encList_nil, countNew]
  | cons m ms ih =>
    intro n
    rw [encList_cons]
    simp only [countNew, List.countP_cons] at ih ⊢
    rw [ih, encStep_num]
    by_cases h : pendingNewB m = true <;> simp [h] <;> omega

theorem encList_getD (now : Nat) (dm : Metric) :
    ∀ (ms : List Metric) (n : Nat) (i : Nat), i < ms.length →
      ((encList now ms n).1.getD i dm) =
        (encStep now (ms.getD i dm) (n + countNew (ms.take i))).1 := by
  intro ms
  induction ms with
  | nil => intro n i hi; simp at hi
  | cons m ms ih =>
    intro n i hi
    match i with
    | 0 => simp [encList_cons, countNew]
    | Nat.succ j =>
      have hj : j < ms.length := by simpa using hi
      simp only [encList_cons, List.getD_cons_succ, List.take_succ_cons]
      rw [ih _ j hj, encStep_num]
      have : (if pendingNewB m then n + 1 else n) + countNew (ms.take j) =
          n + countNew (m :: ms.take j) := by
        simp only [countNew, List.countP_cons]
        by_cases h : pendingNewB m = true <;> simp [h] <;> omega
      rw [this]

theorem encList_names (now : Nat) :
    ∀ (ms : List Metric) (n : Nat), namesOf (encList now ms n).1 = namesOf ms := by
  intro ms
  induction ms with
  | nil => intro n; rfl
  | cons m ms ih =>
    intro n
    simp [encList_cons, namesOf, encStep_name] at ih ⊢
    exact ih _

/-- A default metric, used only as the default of `List.getD`. -/
def metric0 : Metric :=
  { v := 0, name := "", typ := MType.gauge, wireID := 0, lastNamed := 0, lastLogVal := 0 }

/-- All wireIDs in `l` are at most `n`. -/
def wireBound (l : List Metric) (n : Nat) : Prop := ∀ m ∈ l, m.wireID ≤ n

/-- No two distinct positions of `l` carry the same nonzero wireID. -/
def WireDistinct (l : List Metric) : Prop :=
  ∀ i j, i < l.length → j < l.length → i ≠ j →
    (l.getD i metric0).wireID ≠ 0 →
    (l.getD i metric0).wireID ≠ (l.getD j metric0).wireID

theorem countP_take_le (p : α → Bool) (l : List α) :
    ∀ i : Nat, (l.take i).countP p ≤ l.countP p := by
  induction l with
  | nil => intro i; simp
  | cons a l ih =>
    intro i
    cases i with
    | zero => simp
    | succ j =>
      simp only [List.take_succ_cons, List.countP_cons]
      have := ih j
      omega

theorem countP_take_lt (p : α → Bool) (d : α) (l : List α) :
    ∀ i j : Nat, i < j → i < l.length → p (l.getD i d) = true →
      (l.take i).countP p < (l.take j).countP p := by
  induction l with
  | nil => intro i j _ hi; simp at hi
  | cons a l ih =>
    intro i j hij hi hp
    cases i with
    | zero =>
      cases j with
      | zero => omega
      | succ j2 =>
        simp only [List.getD_cons_zero] at hp
        simp [List.take_succ_cons, List.countP_cons, hp]
    | succ i2 =>
      cases j with
      | zero => omega
      | succ j2 =>
        simp only [List.getD_cons_succ] at hp
        simp only [List.take_succ_cons, List.countP_cons]
        have := ih i2 j2 (by omega) (by simpa using hi) hp
        omega

theorem getD_mem {l : List α} {i : Nat} (d : α) (h : i < l.length) : l.getD i d ∈ l := by
  rw [List.getD_eq_getElem l d h]
  exact List.getElem_mem h

theorem encList_wireID_getD (now : Nat) (ms : List Metric) (n : Nat) (i : Nat)
    (hi : i < ms.length) :
    ((encList now ms n).1.getD i metric0).wireID =
      if pendingNewB (ms.getD i metric0) then n + countNew (ms.take i) + 1
      else (ms.getD i metric0).wireID := by
  rw [encList_getD now metric0 ms n i hi, encStep_wireID]

theorem encList_bound (now : Nat) (ms : List Metric) (n : Nat) (hb : wireBound ms n) :
    wireBound (encList now ms n).1 (n + countNew ms) := by
  intro m2 hm2
  rw [List.mem_iff_getElem] at hm2
  obtain ⟨i, hi, heq⟩ := hm2
  rw [← List.getD_eq_getElem _ metric0 hi] at heq
  have hi2 : i < ms.length := by rw [encList_length] at hi; exact hi
  subst heq
  rw [encList_wireID_getD now ms n i hi2]
  by_cases hp : pendingNewB (ms.getD i metric0) = true
  · have hlt : (ms.take i).countP pendingNewB < ms.countP pendingNewB := by
      have := countP_take_lt pendingNewB metric0 ms i ms.length hi2 hi2 hp
      rwa [List.take_length] at this
    rw [if_pos hp]
    simp only [countNew] at *
    omega
  · rw [if_neg hp]
    have := hb _ (getD_mem metric0 hi2)
    omega

theorem encList_distinct (now : Nat) (ms : List Metric) (n : Nat)
    (hb : wireBound ms n) (hd : WireDistinct ms) : WireDistinct (encList now ms n).1 := by
  intro i j hi hj hij hnz
  rw [encList_length] at hi hj
  rw [encList_wireID_getD now ms n i hi] at hnz ⊢
  rw [encList_wireID_getD now ms n j hj]
  by_cases pi : pendingNewB (ms.getD i metric0) = true <;>
    by_cases pj : pendingNewB (ms.getD j metric0) = true
  · rw [if_pos pi] at hnz ⊢
    rw [if_pos pj]
    rcases Nat.lt_or_ge i j with hlt | hge
    · have := countP_take_lt pendingNewB metric0 ms i j hlt hi pi
      simp only [countNew]; omega
    · have hlt : j < i := by omega
      have := countP_take_lt pendingNewB metric0 ms j i hlt hj pj
      simp only [countNew]; omega
  · rw [if_pos pi] at hnz ⊢
    rw [if_neg pj]
    have := hb _ (getD_mem metric0 hj)
    omega
  · rw [if_neg pi] at hnz ⊢
    rw [if_pos pj]
    have := hb _ (getD_mem metric0 hi)
    omega
  · rw [if_neg pi] at hnz ⊢
    rw [if_neg pj]
    exact hd i j hi hj hij hnz

/-- The reachable-state invariant: registered names are distinct, the
sorted cache is correct when clean, every wireID is bounded by the
allocation counter, and nonzero wireIDs are pairwise distinct. -/
def StInv (s : State) : Prop :=
  (namesOf s.metrics).Nodup ∧
  (s.sortedDirty = false → s.sorted = sortNames (namesOf s.metrics)) ∧
  wireBound s.metrics s.numWireID ∧
  WireDistinct s.metrics

theorem inv_initState : StInv initState := by
  refine ⟨List.nodup_nil, ?_, ?_, ?_⟩
  · intro _; rfl
  · intro m hm; simp [initState] at hm
  · intro i j hi _ _ _; simp [initState] at hi

theorem wireDistinct_append_zero (l : List Metric) (m : Metric) (hm : m.wireID = 0)
    (hd : WireDistinct l) : WireDistinct (l ++ [m]) := by
  intro i j hi hj hij hnz
  simp only [List.length_append, List.length_cons, List.length_nil] at hi hj
  rcases Nat.lt_or_ge i l.length with hi2 | hi2
  · rcases Nat.lt_or_ge j l.length with hj2 | hj2
    · rw [List.getD_append _ _ _ _ hi2] at hnz ⊢
      rw [List.getD_append _ _ _ _ hj2]
      exact hd i j hi2 hj2 hij hnz
    · rw [List.getD_append _ _ _ _ hi2] at hnz ⊢
      rw [List.getD_append_right _ _ _ _ hj2]
      have hj3 : j - l.length = 0 := by omega
      rw [hj3, List.getD_cons_zero, hm]
      exact hnz
  · have hi3 : i - l.length = 0 := by omega
    rw [List.getD_append_right _ _ _ _ hi2, hi3, List.getD_cons_zero, hm] at hnz
    exact absurd rfl hnz

theorem inv_publish (s : State) (name : String) (typ : MType) (h : StInv s) :
    StInv (applyOp s (Op.publishOp name typ)) := by
  obtain ⟨h1, h2, h3, h4⟩ := h
  simp only [applyOp]
  cases hnu : newMetricPub name typ s with
  | error e => exact ⟨h1, h2, h3, h4⟩
  | ok s2 =>
    unfold newMetricPub newUnpublished publish at hnu
    by_cases hval : name = "" ∨ name.data.any isIllegalMetricRune = true
    · rw [if_pos hval] at hnu; cases hnu
    · rw [if_neg hval] at hnu
      have hne : ¬ name = "" := fun he => hval (Or.inl he)
      simp only [hne, if_false] at hnu
      by_cases hdup : s.metrics.any (fun x => x.name = name) = true
      · rw [if_pos hdup] at hnu; cases hnu
      · rw [if_neg hdup] at hnu
        cases hnu
        refine ⟨?_, ?_, ?_, ?_⟩
        · have hnotin : name ∉ namesOf s.metrics := by
            intro hmem
            simp only [namesOf, List.mem_map] at hmem
            obtain ⟨x, hx, hxe⟩ := hmem
            exact hdup (List.any_eq_true.mpr ⟨x, hx, by simp [hxe]⟩)
          simp only [namesOf, List.map_append, List.map_cons, List.map_nil]
          rw [List.nodup_append]
          refine ⟨h1, List.nodup_singleton _, ?_⟩
          intro a ha hb
          simp only [List.mem_singleton] at hb
          subst hb
          exact hnotin ha
        · intro hdirty; simp at hdirty
        · intro m2 hm2
          simp only [List.mem_append, List.mem_singleton] at hm2
          rcases hm2 with hm2 | hm2
          · exact h3 m2 hm2
          · subst hm2; exact Nat.zero_le _
        · exact wireDistinct_append_zero _ _ rfl h4

theorem inv_map_preserve (f : Metric → Metric)
    (hfn : ∀ m, (f m).name = m.name) (hfw : ∀ m, (f m).wireID = m.wireID)
    (s : State) (h : StInv s) :
    StInv { s with metrics := s.metrics.map f } := by
  obtain ⟨h1, h2, h3, h4⟩ := h
  have hnames : namesOf (s.metrics.map f) = namesOf s.metrics := by
    simp only [namesOf, List.map_map]
    congr 1
    funext m
    exact hfn m
  refine ⟨?_, ?_, ?_, ?_⟩
  · rw [hnames]; exact h1
  · intro hdirty; rw [hnames]; exact h2 hdirty
  · intro m2 hm2
    simp only [List.mem_map] at hm2
    obtain ⟨m, hm, rfl⟩ := hm2
    rw [hfw]
    exact h3 m hm
  · intro i j hi hj hij hnz
    simp only [List.length_map] at hi hj
    have ei : (s.metrics.map f).getD i metric0 = f (s.metrics.getD i metric0) := by
      rw [List.getD_eq_getElem _ _ (by simpa using hi), List.getElem_map,
        List.getD_eq_getElem _ _ hi]
    have ej : (s.metrics.map f).getD j metric0 = f (s.metrics.getD j metric0) := by
      rw [List.getD_eq_getElem _ _ (by simpa using hj), List.getElem_map,
        List.getD_eq_getElem _ _ hj]
    rw [ei, hfw] at hnz ⊢
    rw [ej, hfw]
    exact h4 i j hi hj hij hnz

theorem inv_metricsFn (s : State) (h : StInv s) : StInv (metricsFn s).2 := by
  obtain ⟨h1, h2, h3, h4⟩ := h
  unfold metricsFn
  by_cases hd : s.sortedDirty = true
  · simp only [hd, if_true]
    exact ⟨h1, fun _ => rfl, h3, h4⟩
  · simp only [hd, if_false]
    exact ⟨h1, h2, h3, h4⟩

theorem inv_encode (s : State) (now : Nat) (h : StInv s) :
    StInv (applyOp s (Op.encodeOp now)) := by
  obtain ⟨h1, h2, h3, h4⟩ := h
  simp only [applyOp]
  unfold encodeLogTailMetricsDelta
  by_cases hrl : s.lastDelta ≠ 0 ∧ now - s.lastDelta < minMetricEncodeInterval
  · rw [if_pos hrl]
    exact ⟨h1, h2, h3, h4⟩
  · rw [if_neg hrl]
    refine ⟨?_, ?_, ?_, ?_⟩
    · rw [encList_names]; exact h1
    · intro hdirty; rw [encList_names]; exact h2 hdirty
    · show wireBound (encList now s.metrics s.numWireID).1 (encList now s.metrics s.numWireID).2.1
      rw [encList_num]
      exact encList_bound now s.metrics s.numWireID h3
    · exact encList_distinct now s.metrics s.numWireID h3 h4

theorem prom_state_eq (s : State) :
    (writePrometheusExpositionFormat s).2 = (metricsFn s).2 := rfl

theorem inv_applyOp (s : State) (op : Op) (h : StInv s) : StInv (applyOp s op) := by
  cases op with
  | publishOp name typ => exact inv_publish s name typ h
  | addOp name d =>
    have := inv_map_preserve (fun m => if m.name = name then metricAdd m d else m)
      (fun m => by by_cases hm : m.name = name <;> simp [hm, metricAdd])
      (fun m => by by_cases hm : m.name = name <;> simp [hm, metricAdd]) s h
    exact this
  | setOp name x =>
    have := inv_map_preserve (fun m => if m.name = name then metricSet m x else m)
      (fun m => by by_cases hm : m.name = name <;> simp [hm, metricSet])
      (fun m => by by_cases hm : m.name = name <;> simp [hm, metricSet]) s h
    exact this
  | listOp => exact inv_metricsFn s h
  | encodeOp now => exact inv_encode s now h
  | promOp =>
    simp only [applyOp, prom_state_eq]
    exact inv_metricsFn s h

theorem inv_foldl (ops : List Op) :
    ∀ s : State, StInv s → StInv (ops.foldl applyOp s) := by
  induction ops with
  | nil => intro s h; exact h
  | cons op ops ih =>
    intro s h
    exact ih (applyOp s op) (inv_applyOp s op h)

theorem inv_run (ops : List Op) : StInv (run ops) :=
  inv_foldl ops initState inv_initState

/-- The registry sorted by metric name, the ordering Go's `sort.Slice`
produces inside `Metrics`. -/
def sortMetrics (l : List Metric) : List Metric :=
  List.insertionSort (fun a b => a.name ≤ b.name) l

/-- Go `Metrics` returning the dereferenced `*Metric` slice: the cached
name ordering, each name resolved to the currently registered metric. -/
def listMetrics (s : State) : List Metric × State :=
  let p := metricsFn s
  (p.1.filterMap (fun n => findMetric p.2 n), p.2)

theorem namesOf_sortMetrics (l : List Metric) :
    namesOf (sortMetrics l) = sortNames (namesOf l) := by
  unfold namesOf sortMetrics sortNames
  exact List.map_insertionSort _ _ _ l (fun a _ b _ => Iff.rfl)

theorem sortMetrics_perm (l : List Metric) : (sortMetrics l).Perm l :=
  List.perm_insertionSort _ l

theorem sortNames_sorted (l : List String) : (sortNames l).Sorted (fun a b => a ≤ b) :=
  List.sorted_insertionSort _ l

theorem find?_name_of_nodup (l : List Metric) (m : Metric)
    (hn : (namesOf l).Nodup) (hm : m ∈ l) :
    l.find? (fun x => x.name = m.name) = some m := by
  induction l with
  | nil => cases hm
  | cons a l ih =>
    simp only [namesOf, List.map_cons, List.nodup_cons] at hn
    rcases List.mem_cons.mp hm with rfl | hm2
    · rw [List.find?_cons_of_pos]
      simp
    · have hne : a.name ≠ m.name := by
        intro he
        exact hn.1 (he ▸ List.mem_map.mpr ⟨m, hm2, rfl⟩)
      rw [List.find?_cons_of_neg]
      · exact ih hn.2 hm2
      · simp [hne]

theorem filterMap_find_names (l l2 : List Metric)
    (hn : (namesOf l).Nodup) (hsub : ∀ m ∈ l2, m ∈ l) :
    (namesOf l2).filterMap (fun n => l.find? (fun x => x.name = n)) = l2 := by
  induction l2 with
  | nil => rfl
  | cons m l2 ih =>
    simp only [namesOf, List.map_cons, List.filterMap_cons]
    rw [find?_name_of_nodup l m hn (hsub m (List.mem_cons_self m l2))]
    have := ih (fun x hx => hsub x (List.mem_cons_of_mem m hx))
    simp only [namesOf] at this
    rw [this]

theorem map_find_names (l l2 : List Metric) (g : Metric → String)
    (hn : (namesOf l).Nodup) (hsub : ∀ m ∈ l2, m ∈ l) :
    (namesOf l2).map (fun n =>
      match l.find? (fun x => x.name = n) with
      | some m => g m
      | none => "") = l2.map g := by
  induction l2 with
  | nil => rfl
  | cons m l2 ih =>
    simp only [namesOf, List.map_cons]
    rw [find?_name_of_nodup l m hn (hsub m (List.mem_cons_self m l2))]
    have := ih (fun x hx => hsub x (List.mem_cons_of_mem m hx))
    simp only [namesOf] at this
    rw [this]

theorem metricsFn_metrics (s : State) : (metricsFn s).2.metrics = s.metrics := by
  unfold metricsFn
  split <;> rfl

theorem metricsFn_numWireID (s : State) : (metricsFn s).2.numWireID = s.numWireID := by
  unfold metricsFn
  split <;> rfl

theorem metricsFn_lastDelta (s : State) : (metricsFn s).2.lastDelta = s.lastDelta := by
  unfold metricsFn
  split <;> rfl

theorem metricsFn_names (s : State) (h : StInv s) :
    (metricsFn s).1 = sortNames (namesOf s.metrics) := by
  unfold metricsFn
  by_cases hd : s.sortedDirty = true
  · simp [hd]
  · simp only [hd, if_false]
    exact h.2.1 (Bool.not_eq_true _ ▸ hd)

theorem listMetrics_eq (s : State) (h : StInv s) :
    (listMetrics s).1 = sortMetrics s.metrics := by
  show ((metricsFn s).1.filterMap (fun n => findMetric (metricsFn s).2 n)) = _
  unfold findMetric
  rw [metricsFn_names s h, metricsFn_metrics, ← namesOf_sortMetrics]
  exact filterMap_find_names s.metrics (sortMetrics s.metrics) h.1
    (fun m hm => (sortMetrics_perm s.metrics).mem_iff.mp hm)

theorem getD_map_metric (f : Metric → Metric) (l : List Metric) (i : Nat)
    (hi : i < l.length) :
    (l.map f).getD i metric0 = f (l.getD i metric0) := by
  rw [List.getD_eq_getElem _ _ (by simpa using hi), List.getElem_map,
    List.getD_eq_getElem _ _ hi]

theorem newMetricPub_ok (name : String) (typ : MType) (s s2 : State)
    (h : newMetricPub name typ s = Except.ok s2) :
    s2 = { s with
      metrics := s.metrics ++
        [{ v := 0, name := name, typ := typ, wireID := 0, lastNamed := 0, lastLogVal := 0 }],
           sortedDirty := true } ∧
    ¬(name = "" ∨ name.data.any isIllegalMetricRune = true) ∧
    ¬s.metrics.any (fun x => x.name = name) = true := by
  unfold newMetricPub newUnpublished publish at h
  by_cases hval : name = "" ∨ name.data.any isIllegalMetricRune = true
  · rw [if_pos hval] at h; cases h
  · rw [if_neg hval] at h
    have hne : ¬ name = "" := fun he => hval (Or.inl he)
    simp only [hne, if_false] at h
    by_cases hdup : s.metrics.any (fun x => x.name = name) = true
    · rw [if_pos hdup] at h; cases h
    · rw [if_neg hdup] at h
      cases h
      exact ⟨rfl, hval, hdup⟩

theorem encode_metrics_getD (now : Nat) (s : State)
    (hrl : ¬(s.lastDelta ≠ 0 ∧ now - s.lastDelta < minMetricEncodeInterval))
    (i : Nat) (hi : i < s.metrics.length) :
    ((encodeLogTailMetricsDelta now s).2.metrics.getD i metric0) =
      (encStep now (s.metrics.getD i metric0)
        (s.numWireID + countNew (s.metrics.take i))).1 := by
  unfold encodeLogTailMetricsDelta
  rw [if_neg hrl]
  exact encList_getD now metric0 s.metrics s.numWireID i hi

theorem applyOp_wireID_persist (s : State) (op : Op) (i : Nat)
    (hi : i < s.metrics.length)
    (hw : (s.metrics.getD i metric0).wireID ≠ 0) :
    i < (applyOp s op).metrics.length ∧
    ((applyOp s op).metrics.getD i metric0).wireID = (s.metrics.getD i metric0).wireID ∧
    ((applyOp s op).metrics.getD i metric0).name = (s.metrics.getD i metric0).name := by
  cases op with
  | publishOp name typ =>
    simp only [applyOp]
    cases hnu : newMetricPub name typ s with
    | error e => exact ⟨hi, rfl, rfl⟩
    | ok s2 =>
      obtain ⟨rfl, -, -⟩ := newMetricPub_ok name typ s s2 hnu
      refine ⟨?_, ?_, ?_⟩
      · simp only [List.length_append, List.length_cons, List.length_nil]; omega
      · rw [List.getD_append _ _ _ _ hi]
      · rw [List.getD_append _ _ _ _ hi]
  | addOp name d =>
    simp only [applyOp, addByName]
    have he := getD_map_metric (fun m => if m.name = name then metricAdd m d else m)
      s.metrics i hi
    rw [List.length_map, he]
    refine ⟨hi, ?_, ?_⟩
    · show (if (s.metrics.getD i metric0).name = name
          then metricAdd (s.metrics.getD i metric0) d
          else s.metrics.getD i metric0).wireID = _
      by_cases hm : (s.metrics.getD i metric0).name = name
      · rw [if_pos hm]; rfl
      · rw [if_neg hm]
    · show (if (s.metrics.getD i metric0).name = name
          then metricAdd (s.metrics.getD i metric0) d
          else s.metrics.getD i metric0).name = _
      by_cases hm : (s.metrics.getD i metric0).name = name
      · rw [if_pos hm]; rfl
      · rw [if_neg hm]
  | setOp name x =>
    simp only [applyOp, setByName]
    have he := getD_map_metric (fun m => if m.name = name then metricSet m x else m)
      s.metrics i hi
    rw [List.length_map, he]
    refine ⟨hi, ?_, ?_⟩
    · show (if (s.metrics.getD i metric0).name = name
          then metricSet (s.metrics.getD i metric0) x
          else s.metrics.getD i metric0).wireID = _
      by_cases hm : (s.metrics.getD i metric0).name = name
      · rw [if_pos hm]; rfl
      · rw [if_neg hm]
    · show (if (s.metrics.getD i metric0).name = name
          then metricSet (s.metrics.getD i metric0) x
          else s.metrics.getD i metric0).name = _
      by_cases hm : (s.metrics.getD i metric0).name = name
      · rw [if_pos hm]; rfl
      · rw [if_neg hm]
  | listOp =>
    simp only [applyOp]
    exact ⟨by rw [metricsFn_metrics]; exact hi, by rw [metricsFn_metrics],
      by rw [metricsFn_metrics]⟩
  | encodeOp now =>
    simp only [applyOp]
    by_cases hrl : s.lastDelta ≠ 0 ∧ now - s.lastDelta < minMetricEncodeInterval
    · unfold encodeLogTailMetricsDelta
      rw [if_pos hrl]
      exact ⟨hi, rfl, rfl⟩
    · have hlen : (encodeLogTailMetricsDelta now s).2.metrics.length = s.metrics.length := by
        unfold encodeLogTailMetricsDelta
        rw [if_neg hrl]
        exact encList_length now s.metrics s.numWireID
      rw [hlen, encode_metrics_getD now s hrl i hi, encStep_wireID, encStep_name]
      have hpn : pendingNewB (s.metrics.getD i metric0) = false := by
        unfold pendingNewB
        have hb : ((s.metrics.getD i metric0).wireID == 0) = false :=
          beq_eq_false_iff_ne.mpr hw
        rw [hb, Bool.and_false]
      rw [hpn]
      exact ⟨hi, rfl, rfl⟩
  | promOp =>
    simp only [applyOp, prom_state_eq]
    exact ⟨by rw [metricsFn_metrics]; exact hi, by rw [metricsFn_metrics],
      by rw [metricsFn_metrics]⟩

/-- Character is a lowercase hexadecimal digit. -/
def isLowerHexChar (c : Char) : Bool :=
  decide ('0' ≤ c) && decide (c ≤ '9') || decide ('a' ≤ c) && decide (c ≤ 'f')

/-- Numeric value of a lowercase hexadecimal digit. -/
def hexCharVal (c : Char) : Nat :=
  if decide (c ≤ '9') then c.toNat - 48 else c.toNat - 87

/-- Reassembly of little-endian base-128 payloads, the decoding side of
the continuation-bit varint scheme. -/
def debase128 : List Nat → Nat
  | [] => 0
  | b :: bs => b % 128 + 128 * debase128 bs

/-- Inverse of the zigzag mapping. -/
def unzigzag (n : Nat) : Int :=
  if n % 2 = 0 then ((n / 2 : Nat) : Int) else -((n / 2 : Nat) : Int) - 1

theorem unzigzag_zigzag (v : Int) : unzigzag (zigzag v) = v := by
  unfold zigzag unzigzag
  by_cases h : 0 ≤ v
  · rw [if_pos h]
    have h2 : 2 * v.toNat % 2 = 0 := by omega
    rw [if_pos h2]
    omega
  · rw [if_neg h]
    have h1 : 1 ≤ (-v).toNat := by omega
    have h2 : ¬((2 * (-v).toNat - 1) % 2 = 0) := by omega
    rw [if_neg h2]
    omega

theorem zigzag_lt (v : Int) (h1 : -int64Half ≤ v) (h2 : v < int64Half) :
    zigzag v < 2 ^ 64 := by
  unfold zigzag
  unfold int64Half at h1 h2
  by_cases h : 0 ≤ v
  · rw [if_pos h]; omega
  · rw [if_neg h]; omega

theorem uvarintFuel_bytes_lt (f : Nat) :
    ∀ n : Nat, ∀ b ∈ uvarintFuel f n, b < 256 := by
  induction f with
  | zero => intro n b hb; cases hb
  | succ f ih =>
    intro n b hb
    unfold uvarintFuel at hb
    by_cases h : n < 128
    · rw [if_pos h] at hb
      simp only [List.mem_singleton] at hb
      omega
    · rw [if_neg h] at hb
      rcases List.mem_cons.mp hb with rfl | hb2
      · omega
      · exact ih _ b hb2

theorem debase128_uvarintFuel (f : Nat) :
    ∀ n : Nat, n < 128 ^ f → debase128 (uvarintFuel f n) = n := by
  induction f with
  | zero => intro n hn; simp at hn; simp [hn, uvarintFuel, debase128]
  | succ f ih =>
    intro n hn
    unfold uvarintFuel
    by_cases h : n < 128
    · rw [if_pos h]
      simp only [debase128]
      omega
    · rw [if_neg h]
      simp only [debase128]
      have hdiv : n / 128 < 128 ^ f := by
        rw [pow_succ] at hn
        omega
      rw [ih _ hdiv]
      omega

theorem uvarintFuel_continuation (f : Nat) :
    ∀ n : Nat, n < 128 ^ f → 0 < f →
      ∃ bs b, uvarintFuel f n = bs ++ [b] ∧ b < 128 ∧ ∀ x ∈ bs, 128 ≤ x := by
  induction f with
  | zero => intro n _ hf; omega
  | succ f ih =>
    intro n hn _
    unfold uvarintFuel
    by_cases h : n < 128
    · exact ⟨[], n, by rw [if_pos h]; rfl, h, fun x hx => absurd hx (List.not_mem_nil x)⟩
    · rw [if_neg h]
      have hdiv : n / 128 < 128 ^ f := by
        rw [pow_succ] at hn
        omega
      have hfpos : 0 < f := by
        by_contra hc
        have hf0 : f = 0 := by omega
        subst hf0
        simp at hdiv
        omega
      obtain ⟨bs, b, heq, hb, hbs⟩ := ih (n / 128) hdiv hfpos
      refine ⟨(n % 128 + 128) :: bs, b, by rw [heq]; rfl, hb, ?_⟩
      intro x hx
      rcases List.mem_cons.mp hx with rfl | hx2
      · omega
      · exact hbs x hx2

theorem hexDigitChar_spec :
    ∀ b : Nat, b < 16 →
      isLowerHexChar (hexDigitChar b) = true ∧ hexCharVal (hexDigitChar b) = b := by
  intro b hb
  interval_cases b <;> exact ⟨rfl, rfl⟩

theorem hexBytePair_chars (b : Nat) (hb : b < 256) :
    ∀ c ∈ hexBytePair b, isLowerHexChar c = true := by
  intro c hc
  unfold hexBytePair at hc
  rcases List.mem_cons.mp hc with rfl | hc2
  · exact (hexDigitChar_spec (b / 16) (by omega)).1
  · rcases List.mem_cons.mp hc2 with rfl | hc3
    · exact (hexDigitChar_spec (b % 16) (by omega)).1
    · cases hc3

theorem hexBytePair_decode (b : Nat) (hb : b < 256) :
    hexCharVal (hexDigitChar (b / 16)) * 16 + hexCharVal (hexDigitChar (b % 16)) = b := by
  have h1 := (hexDigitChar_spec (b / 16) (by omega)).2
  have h2 := (hexDigitChar_spec (b % 16) (by omega)).2
  rw [h1, h2]
  omega

theorem str_data_append (a b : String) : (a ++ b).data = a.data ++ b.data := by
  cases a
  cases b
  rfl

theorem hexFlatten_length (bs : List Nat) :
    ((bs.map hexBytePair).flatten).length = 2 * bs.length := by
  induction bs with
  | nil => rfl
  | cons b bs ih =>
    simp only [List.map_cons, List.flatten_cons, List.length_append, ih, hexBytePair,
      List.length_cons, List.length_nil]
    omega

theorem writeHexVarint_chars (v : Int) :
    ∀ c ∈ (writeHexVarint v).data, isLowerHexChar c = true := by
  intro c hc
  unfold writeHexVarint at hc
  have hc2 : c ∈ ((uvarint (zigzag v)).map hexBytePair).flatten := hc
  rw [List.mem_flatten] at hc2
  obtain ⟨pair, hpair, hcp⟩ := hc2
  rw [List.mem_map] at hpair
  obtain ⟨b, hb, rfl⟩ := hpair
  exact hexBytePair_chars b (uvarintFuel_bytes_lt 10 _ b hb) c hcp

/-- The output alphabet of the delta encoder: the three record tags,
lowercase hexadecimal digits, and legal metric-name characters. -/
def frameChar (c : Char) : Bool :=
  decide (c = 'N') || decide (c = 'S') || decide (c = 'I') ||
  isLowerHexChar c || !(isIllegalMetricRune c)

theorem char_range_good (c lo hi : Char) (hlo : lo ≤ c) (hhi : c ≤ hi)
    (h1 : hi < '"' ∨ '"' < lo) (h2 : hi < '\\' ∨ '\\' < lo) (h3 : ' ' < lo)
    (h4 : hi < '\x7f') :
    c ≠ '"' ∧ c ≠ '\\' ∧ ¬(c < ' ') ∧ c ≠ '\x7f' := by
  refine ⟨?_, ?_, ?_, ?_⟩
  · rintro rfl
    rcases h1 with h | h
    · exact absurd hhi (not_le.mpr h)
    · exact absurd hlo (not_le.mpr h)
  · rintro rfl
    rcases h2 with h | h
    · exact absurd hhi (not_le.mpr h)
    · exact absurd hlo (not_le.mpr h)
  · intro hlt
    exact absurd (lt_of_le_of_lt hlo hlt) (asymm h3)
  · rintro rfl
    exact absurd hhi (not_le.mpr h4)

theorem frameChar_good (c : Char) (hc : frameChar c = true) :
    c ≠ '"' ∧ c ≠ '\\' ∧ ¬(c < ' ') ∧ c ≠ '\x7f' := by
  unfold frameChar isLowerHexChar isIllegalMetricRune at hc
  simp only [Bool.or_eq_true, Bool.and_eq_true, Bool.not_not, decide_eq_true_eq] at hc
  rcases hc with ((((rfl | rfl) | rfl) | hhex) | hname)
  · exact ⟨by decide, by decide, by decide, by decide⟩
  · exact ⟨by decide, by decide, by decide, by decide⟩
  · exact ⟨by decide, by decide, by decide, by decide⟩
  · rcases hhex with ⟨h1, h2⟩ | ⟨h1, h2⟩
    · exact char_range_good c _ _ h1 h2 (Or.inr (by decide)) (Or.inl (by decide))
        (by decide) (by decide)
    · exact char_range_good c _ _ h1 h2 (Or.inr (by decide)) (Or.inr (by decide))
        (by decide) (by decide)
  · rcases hname with ((⟨h1, h2⟩ | ⟨h1, h2⟩) | ⟨h1, h2⟩) | rfl
    · exact char_range_good c _ _ h1 h2 (Or.inr (by decide)) (Or.inr (by decide))
        (by decide) (by decide)
    · exact char_range_good c _ _ h1 h2 (Or.inr (by decide)) (Or.inl (by decide))
        (by decide) (by decide)
    · exact char_range_good c _ _ h1 h2 (Or.inr (by decide)) (Or.inl (by decide))
        (by decide) (by decide)
    · exact ⟨by decide, by decide, by decide, by decide⟩

theorem writeHexVarint_frameChars (v : Int) :
    ∀ c ∈ (writeHexVarint v).data, frameChar c = true := by
  intro c hc
  have := writeHexVarint_chars v c hc
  unfold frameChar
  rw [this]
  simp

theorem writeName_frameChars (name : String)
    (hn : name.data.any isIllegalMetricRune = false) :
    ∀ c ∈ (writeName name).data, frameChar c = true := by
  intro c hc
  unfold writeName at hc
  rw [str_data_append, str_data_append] at hc
  rcases List.mem_append.mp hc with hc1 | hc2
  · rcases List.mem_append.mp hc1 with hc3 | hc4
    · rcases List.mem_singleton.mp hc3 with rfl
      rfl
    · exact writeHexVarint_frameChars _ c hc4
  · have : isIllegalMetricRune c = false := by
      by_contra hbad
      have hbad2 : isIllegalMetricRune c = true := by
        cases hil : isIllegalMetricRune c
        · exact absurd hil hbad
        · rfl
      have : name.data.any isIllegalMetricRune = true :=
        List.any_eq_true.mpr ⟨c, hc2, hbad2⟩
      rw [this] at hn
      cases hn
    unfold frameChar
    rw [this]
    simp

theorem writeValue_frameChars (wid : Nat) (v : Int) :
    ∀ c ∈ (writeValue wid v).data, frameChar c = true := by
  intro c hc
  unfold writeValue at hc
  rw [str_data_append, str_data_append] at hc
  rcases List.mem_append.mp hc with hc1 | hc2
  · rcases List.mem_append.mp hc1 with hc3 | hc4
    · rcases List.mem_singleton.mp hc3 with rfl
      rfl
    · exact writeHexVarint_frameChars _ c hc4
  · exact writeHexVarint_frameChars _ c hc2

theorem writeDelta_frameChars (wid : Nat) (v : Int) :
    ∀ c ∈ (writeDelta wid v).data, frameChar c = true := by
  intro c hc
  unfold writeDelta at hc
  rw [str_data_append, str_data_append] at hc
  rcases List.mem_append.mp hc with hc1 | hc2
  · rcases List.mem_append.mp hc1 with hc3 | hc4
    · rcases List.mem_singleton.mp hc3 with rfl
      rfl
    · exact writeHexVarint_frameChars _ c hc4
  · exact writeHexVarint_frameChars _ c hc2

theorem encStep_frameChars (now : Nat) (m : Metric) (n : Nat)
    (hm : m.name.data.any isIllegalMetricRune = false) :
    ∀ c ∈ (encStep now m n).2.2.data, frameChar c = true := by
  intro c hc
  unfold encStep at hc
  by_cases h0 : wrap64 (m.v - m.lastLogVal) = 0
  · simp only [h0, if_pos rfl] at hc
    cases hc
  · rw [if_neg h0] at hc
    by_cases hnam : m.lastNamed = 0 ∨ metricLogNameFrequency < now - m.lastNamed
    · rw [if_pos hnam] at hc
      simp only at hc
      rw [str_data_append] at hc
      rcases List.mem_append.mp hc with hc1 | hc2
      · exact writeName_frameChars m.name hm c hc1
      · exact writeValue_frameChars _ _ c hc2
    · rw [if_neg hnam] at hc
      exact writeDelta_frameChars _ _ c hc

theorem encList_frameChars (now : Nat) :
    ∀ (ms : List Metric) (n : Nat),
      (∀ m ∈ ms, m.name.data.any isIllegalMetricRune = false) →
      ∀ c ∈ (encList now ms n).2.2.data, frameChar c = true := by
  intro ms
  induction ms with
  | nil => intro n _ c hc; cases hc
  | cons m ms ih =>
    intro n hval c hc
    rw [encList_cons] at hc
    simp only at hc
    rw [str_data_append] at hc
    rcases List.mem_append.mp hc with hc1 | hc2
    · exact encStep_frameChars now m n (hval m (List.mem_cons_self m ms)) c hc1
    · exact ih _ (fun x hx => hval x (List.mem_cons_of_mem m hx)) c hc2

theorem encode_frameChars (now : Nat) (s : State)
    (hval : ∀ m ∈ s.metrics, m.name.data.any isIllegalMetricRune = false) :
    ∀ c ∈ (encodeLogTailMetricsDelta now s).1.data, frameChar c = true := by
  intro c hc
  unfold encodeLogTailMetricsDelta at hc
  by_cases hrl : s.lastDelta ≠ 0 ∧ now - s.lastDelta < minMetricEncodeInterval
  · rw [if_pos hrl] at hc
    cases hc
  · rw [if_neg hrl] at hc
    exact encList_frameChars now s.metrics s.numWireID hval c hc

/-- Modelled from the spec: the sources under scrutiny contain no decoder
for the delta stream (the spec specifies the consumer in its wire-format
section: read two lowercase hexadecimal characters per varint byte,
little-endian base-128 payloads with a continuation bit, zigzag-signed).
This reads one hex varint from the character stream and returns the
reassembled unsigned value and the rest of the stream. -/
def readHexUvarint : Nat → List Char → Option (Nat × List Char)
  | 0, _ => none
  | f + 1, c1 :: c2 :: rest =>
    let b := hexCharVal c1 * 16 + hexCharVal c2
    if b < 128 then some (b, rest)
    else
      match readHexUvarint f rest with
      | some (hi, rest2) => some (b - 128 + 128 * hi, rest2)
      | none => none
  | _ + 1, _ => none

/-- Modelled from the spec: records are parsed sequentially until the
input is exhausted; a name record binds the name for the following
records, a value record sets the metric with the given wireID to an
absolute value, an increment record adds the signed delta to it.  The
decoder state is the value of every wireID. -/
def decodeRecords : Nat → List Char → (Nat → Int) → Option (Nat → Int)
  | 0, _, _ => none
  | _ + 1, [], vals => some vals
  | f + 1, c :: rest, vals =>
    if c = 'N' then
      match readHexUvarint 10 rest with
      | some (n, rest2) => decodeRecords f (rest2.drop (unzigzag n).toNat) vals
      | none => none
    else if c = 'S' then
      match readHexUvarint 10 rest with
      | some (w, rest2) =>
        match readHexUvarint 10 rest2 with
        | some (x, rest3) =>
          decodeRecords f rest3
            (fun i => if i = (unzigzag w).toNat then unzigzag x else vals i)
        | none => none
      | none => none
    else if c = 'I' then
      match readHexUvarint 10 rest with
      | some (w, rest2) =>
        match readHexUvarint 10 rest2 with
        | some (x, rest3) =>
          decodeRecords f rest3
            (fun i => if i = (unzigzag w).toNat then vals i + unzigzag x else vals i)
        | none => none
      | none => none
    else none

/-- Modelled from the spec: decode one frame, applying its records to the
given per-wireID values. -/
def decodeFrame (frame : String) (vals : Nat → Int) : Option (Nat → Int) :=
  decodeRecords (frame.data.length + 1) frame.data vals

/-- Modelled from the spec: decode a sequence of frames in order. -/
def decodeFrames (frames : List String) (vals : Nat → Int) : Option (Nat → Int) :=
  frames.foldl (fun acc f => acc.bind (fun g => decodeFrame f g)) (some vals)

/-- The reconstructed value of wireID `w` after decoding `frames` starting
from all values zero. -/
def decodeAt (frames : List String) (w : Nat) : Option Int :=
  (decodeFrames frames (fun _ => 0)).map (fun g => g w)

example : decodeAt [writeName "foo" ++ writeValue 1 5] 1 = some 5 := rfl
example : decodeAt [writeName "foo" ++ writeValue 1 5, writeDelta 1 3] 1 = some 8 := rfl
example : decodeAt [writeValue 3 (-77), writeDelta 3 5] 3 = some (-72) := rfl

theorem encStep_zero_case (now : Nat) (m : Metric) (n : Nat)
    (h0 : wrap64 (m.v - m.lastLogVal) = 0) : encStep now m n = (m, n, "") := by
  unfold encStep
  simp [h0]

theorem encStep_name_case (now : Nat) (m : Metric) (n : Nat)
    (h0 : wrap64 (m.v - m.lastLogVal) ≠ 0)
    (hn : m.lastNamed = 0 ∨ metricLogNameFrequency < now - m.lastNamed) :
    encStep now m n =
      ({ m with
          lastLogVal := m.v,
          wireID := if m.wireID = 0 then n + 1 else m.wireID,
          lastNamed := now },
       if m.wireID = 0 then n + 1 else n,
       writeName m.name ++ writeValue (if m.wireID = 0 then n + 1 else m.wireID) m.v) := by
  unfold encStep
  simp [h0, hn]

theorem encStep_inc_case (now : Nat) (m : Metric) (n : Nat)
    (h0 : wrap64 (m.v - m.lastLogVal) ≠ 0)
    (hn : ¬(m.lastNamed = 0 ∨ metricLogNameFrequency < now - m.lastNamed)) :
    encStep now m n =
      ({ m with
          lastLogVal := m.v,
          wireID := if m.wireID = 0 then n + 1 else m.wireID },
       if m.wireID = 0 then n + 1 else n,
       writeDelta (if m.wireID = 0 then n + 1 else m.wireID)
         (wrap64 (m.v - m.lastLogVal))) := by
  unfold encStep
  simp [h0, hn]

theorem encode_not_limited (now : Nat) (s : State)
    (h : ¬(s.lastDelta ≠ 0 ∧ now - s.lastDelta < minMetricEncodeInterval)) :
    encodeLogTailMetricsDelta now s =
      ((encList now s.metrics s.numWireID).2.2,
       { s with
         metrics := (encList now s.metrics s.numWireID).1,
         numWireID := (encList now s.metrics s.numWireID).2.1,
         lastDelta := now }) := by
  unfold encodeLogTailMetricsDelta
  rw [if_neg h]

theorem wrap64_eq_zero_iff (v w : Int)
    (hv1 : -int64Half ≤ v) (hv2 : v < int64Half)
    (hw1 : -int64Half ≤ w) (hw2 : w < int64Half) :
    wrap64 (v - w) = 0 ↔ v = w := by
  unfold wrap64 int64Half int64Mod at *
  omega

/-- C1: in one non-rate-limited encode, every registered metric whose
(`int64`) value differs from `lastLogVal` emits either a name record
immediately followed by an absolute value record (if never named or named
more than four hours ago, updating `lastNamed` to now and assigning the
next sequential wireID when it has none), or else a single increment
record carrying the signed `int64` difference; `lastLogVal` is always
updated to the current value, and an unchanged metric emits nothing and
is left untouched.  The frame is the concatenation of the per-metric
records in iteration order. -/
theorem c1_per_metric_records :
    (∀ (v w : Int), -int64Half ≤ v → v < int64Half → -int64Half ≤ w → w < int64Half →
      (wrap64 (v - w) = 0 ↔ v = w)) ∧
    (∀ (now : Nat) (m : Metric) (n : Nat), wrap64 (m.v - m.lastLogVal) = 0 →
      encStep now m n = (m, n, "")) ∧
    (∀ (now : Nat) (m : Metric) (n : Nat), wrap64 (m.v - m.lastLogVal) ≠ 0 →
      (m.lastNamed = 0 ∨ metricLogNameFrequency < now - m.lastNamed) →
      encStep now m n =
        ({ m with
            lastLogVal := m.v,
            wireID := if m.wireID = 0 then n + 1 else m.wireID,
            lastNamed := now },
         if m.wireID = 0 then n + 1 else n,
         writeName m.name ++ writeValue (if m.wireID = 0 then n + 1 else m.wireID) m.v)) ∧
    (∀ (now : Nat) (m : Metric) (n : Nat), wrap64 (m.v - m.lastLogVal) ≠ 0 →
      ¬(m.lastNamed = 0 ∨ metricLogNameFrequency < now - m.lastNamed) →
      encStep now m n =
        ({ m with
            lastLogVal := m.v,
            wireID := if m.wireID = 0 then n + 1 else m.wireID },
         if m.wireID = 0 then n + 1 else n,
         writeDelta (if m.wireID = 0 then n + 1 else m.wireID)
           (wrap64 (m.v - m.lastLogVal)))) ∧
    (∀ (now : Nat) (s : State),
      ¬(s.lastDelta ≠ 0 ∧ now - s.lastDelta < minMetricEncodeInterval) →
      encodeLogTailMetricsDelta now s =
        ((encList now s.metrics s.numWireID).2.2,
         { s with
           metrics := (encList now s.metrics s.numWireID).1,
           numWireID := (encList now s.metrics s.numWireID).2.1,
           lastDelta := now })) ∧
    (∀ (now : Nat) (m : Metric) (ms : List Metric) (n : Nat),
      (encList now (m :: ms) n).2.2 =
        (encStep now m n).2.2 ++ (encList now ms (encStep now m n).2.1).2.2) :=
  ⟨wrap64_eq_zero_iff, encStep_zero_case, encStep_name_case, encStep_inc_case,
    encode_not_limited, fun now m ms n => by rw [encList_cons]⟩

/-- Witness for C1 at concrete inputs: a changed never-named metric emits
a name record then a value record and gets wireID 1; a changed
already-named metric within the window emits one increment record. -/
theorem c1_witness :
    encStep 1 { v := 5, name := "x", typ := MType.counter,
                wireID := 0, lastNamed := 0, lastLogVal := 0 } 0 =
      ({ v := 5, name := "x", typ := MType.counter,
         wireID := 1, lastNamed := 1, lastLogVal := 5 }, 1, "N02xS020a") ∧
    encStep 6 { v := 7, name := "y", typ := MType.gauge,
                wireID := 2, lastNamed := 5, lastLogVal := 5 } 9 =
      ({ v := 7, name := "y", typ := MType.gauge,
         wireID := 2, lastNamed := 5, lastLogVal := 7 }, 9, "I0404") := by
  constructor
  · rw [c1_per_metric_records.2.2.1 1
      { v := 5, name := "x", typ := MType.counter,
        wireID := 0, lastNamed := 0, lastLogVal := 0 } 0 (by decide) (Or.inl rfl)]
    rfl
  · rw [c1_per_metric_records.2.2.2.1 6
      { v := 7, name := "y", typ := MType.gauge,
        wireID := 2, lastNamed := 5, lastLogVal := 5 } 9 (by decide) (by decide)]
    rfl

/-- C3: a call made while the previous non-rate-limited call's timestamp
is nonzero and less than 15 seconds old returns the empty string and the
state unchanged; any other call records `now` as the new last-invocation
time before scanning (even if it will emit no records). -/
theorem c3_rate_limit (now : Nat) (s : State) :
    (s.lastDelta ≠ 0 → now - s.lastDelta < minMetricEncodeInterval →
      encodeLogTailMetricsDelta now s = ("", s)) ∧
    ((s.lastDelta = 0 ∨ minMetricEncodeInterval ≤ now - s.lastDelta) →
      (encodeLogTailMetricsDelta now s).2.lastDelta = now) := by
  constructor
  · intro h1 h2
    unfold encodeLogTailMetricsDelta
    rw [if_pos ⟨h1, h2⟩]
  · intro h
    have hc : ¬(s.lastDelta ≠ 0 ∧ now - s.lastDelta < minMetricEncodeInterval) := by
      rintro ⟨hne, hlt⟩
      rcases h with h0 | hge
      · exact hne h0
      · exact absurd hlt (not_lt.mpr hge)
    rw [encode_not_limited now s hc]

/-- Witness for C3: with a last-invocation time of 1, a call at time 5 is
rate-limited (empty output, untouched state, although a value changed);
a call at a time 15 seconds later records the new invocation time. -/
theorem c3_witness :
    encodeLogTailMetricsDelta 5
      { metrics := [{ v := 3, name := "a", typ := MType.gauge,
                      wireID := 0, lastNamed := 0, lastLogVal := 0 }],
        numWireID := 0, lastDelta := 1, sortedDirty := false, sorted := [] } =
      ("", { metrics := [{ v := 3, name := "a", typ := MType.gauge,
                           wireID := 0, lastNamed := 0, lastLogVal := 0 }],
             numWireID := 0, lastDelta := 1, sortedDirty := false, sorted := [] }) ∧
    (encodeLogTailMetricsDelta 15000000001
      { metrics := [], numWireID := 0, lastDelta := 1,
        sortedDirty := false, sorted := [] }).2.lastDelta = 15000000001 := by
  constructor
  · exact (c3_rate_limit 5
      { metrics := [{ v := 3, name := "a", typ := MType.gauge,
                      wireID := 0, lastNamed := 0, lastLogVal := 0 }],
        numWireID := 0, lastDelta := 1, sortedDirty := false, sorted := [] }).1
      (by decide) (by decide)
  · exact (c3_rate_limit 15000000001
      { metrics := [], numWireID := 0, lastDelta := 1,
        sortedDirty := false, sorted := [] }).2 (Or.inr (by decide))

/-- C10: when no previous invocation time has been recorded (zero
timestamp), an encode call is never rate-limited: it proceeds to record
the invocation time and scan the registry, whatever `now` is. -/
theorem c10_first_call_not_limited (now : Nat) (s : State) (h : s.lastDelta = 0) :
    encodeLogTailMetricsDelta now s =
      ((encList now s.metrics s.numWireID).2.2,
       { s with
         metrics := (encList now s.metrics s.numWireID).1,
         numWireID := (encList now s.metrics s.numWireID).2.1,
         lastDelta := now }) :=
  encode_not_limited now s (fun hc => hc.1 h)

/-- Witness for C10: immediately after start (time 1, zero last-invocation
time) the encoder scans and emits. -/
theorem c10_witness :
    encodeLogTailMetricsDelta 1
      { metrics := [{ v := 3, name := "a", typ := MType.gauge,
                      wireID := 0, lastNamed := 0, lastLogVal := 0 }],
        numWireID := 0, lastDelta := 0, sortedDirty := false, sorted := [] } =
      ("N02aS0206",
       { metrics := [{ v := 3, name := "a", typ := MType.gauge,
                       wireID := 1, lastNamed := 1, lastLogVal := 3 }],
         numWireID := 1, lastDelta := 1, sortedDirty := false, sorted := [] }) := by
  rw [c10_first_call_not_limited 1
    { metrics := [{ v := 3, name := "a", typ := MType.gauge,
                    wireID := 0, lastNamed := 0, lastLogVal := 0 }],
      numWireID := 0, lastDelta := 0, sortedDirty := false, sorted := [] } rfl]
  rfl

/-- C2: the byte-exact wire format.  A name record is the byte `N`, the
hex varint of the name's byte length, then the raw name; a value record
is `S` then the hex varints of the wireID and the absolute value; an
increment record is `I` then the hex varints of the wireID and the
delta.  The varint is zigzag plus base-128 continuation bytes (all
continuation bytes at least 128, final byte below 128, payloads
reassembling to the zigzag value, zigzag invertible), and the hex
rendering emits exactly two lowercase hexadecimal characters per varint
byte, decodable back to the byte. -/
theorem c2_wire_format :
    (∀ name : String,
      writeName name = "N" ++ writeHexVarint (Int.ofNat name.utf8ByteSize) ++ name) ∧
    (∀ (w : Nat) (v : Int),
      writeValue w v = "S" ++ writeHexVarint (Int.ofNat w) ++ writeHexVarint v) ∧
    (∀ (w : Nat) (v : Int),
      writeDelta w v = "I" ++ writeHexVarint (Int.ofNat w) ++ writeHexVarint v) ∧
    (∀ v : Int,
      (writeHexVarint v).data = ((uvarint (zigzag v)).map hexBytePair).flatten ∧
      (writeHexVarint v).data.length = 2 * (uvarint (zigzag v)).length ∧
      ∀ c ∈ (writeHexVarint v).data, isLowerHexChar c = true) ∧
    (∀ b : Nat, b < 256 →
      hexBytePair b = [hexDigitChar (b / 16), hexDigitChar (b % 16)] ∧
      hexCharVal (hexDigitChar (b / 16)) * 16 + hexCharVal (hexDigitChar (b % 16)) = b) ∧
    (∀ v : Int, 0 ≤ v → zigzag v = 2 * v.toNat) ∧
    (∀ v : Int, v < 0 → zigzag v = 2 * (-v).toNat - 1) ∧
    (∀ v : Int, -int64Half ≤ v → v < int64Half →
      debase128 (uvarint (zigzag v)) = zigzag v ∧
      unzigzag (zigzag v) = v ∧
      ∃ bs b, uvarint (zigzag v) = bs ++ [b] ∧ b < 128 ∧
        ∀ x ∈ bs, 128 ≤ x ∧ x < 256) := by
  refine ⟨fun _ => rfl, fun _ _ => rfl, fun _ _ => rfl, ?_, ?_, ?_, ?_, ?_⟩
  · intro v
    exact ⟨rfl, hexFlatten_length _, writeHexVarint_chars v⟩
  · intro b hb
    exact ⟨rfl, hexBytePair_decode b hb⟩
  · intro v hv
    unfold zigzag
    rw [if_pos hv]
  · intro v hv
    unfold zigzag
    rw [if_neg (not_le.mpr hv)]
  · intro v h1 h2
    have hlt : zigzag v < 128 ^ 10 := by
      have := zigzag_lt v h1 h2
      have hpow : (2 : Nat) ^ 64 < 128 ^ 10 := by norm_num
      omega
    refine ⟨debase128_uvarintFuel 10 _ hlt, unzigzag_zigzag v, ?_⟩
    obtain ⟨bs, b, heq, hb, hbs⟩ := uvarintFuel_continuation 10 _ hlt (by omega)
    refine ⟨bs, b, heq, hb, fun x hx => ⟨hbs x hx, ?_⟩⟩
    have hxmem : x ∈ uvarintFuel 10 (zigzag v) := by
      rw [heq]
      exact List.mem_append.mpr (Or.inl hx)
    exact uvarintFuel_bytes_lt 10 _ x hxmem

/-- Witness for C2 at concrete inputs: the varint of 300 (zigzag 600) is
the two bytes 216 and 4, rendered as the four characters d804; the bytes
reassemble to 600 and unzigzag back to 300. -/
theorem c2_witness :
    ((300 : Int) < int64Half ∧ -int64Half ≤ (300 : Int) ∧ (216 : Nat) < 256) ∧
    writeHexVarint 300 = "d804" ∧
    debase128 (uvarint (zigzag 300)) = zigzag 300 ∧
    unzigzag (zigzag 300) = 300 ∧
    hexBytePair 216 = [hexDigitChar 13, hexDigitChar 8] ∧
    hexCharVal (hexDigitChar (216 / 16)) * 16 + hexCharVal (hexDigitChar (216 % 16)) = 216 := by
  refine ⟨⟨by decide, by decide, by decide⟩, rfl, ?_, ?_, rfl, ?_⟩
  · exact (c2_wire_format.2.2.2.2.2.2.2 300 (by decide) (by decide)).1
  · exact (c2_wire_format.2.2.2.2.2.2.2 300 (by decide) (by decide)).2.1
  · exact (c2_wire_format.2.2.2.2.1 216 (by decide)).2

/-- C5: whatever the metric values (any integers, wrap-around included),
if every registered name uses only the legal character set then every
character of an encoded frame is one of the record tags `N`, `S`, `I`, a
lowercase hexadecimal digit, or a legal name character, and in
particular the frame contains no double quote, no backslash and no
control character (below space, or delete). -/
theorem c5_json_safety (now : Nat) (s : State)
    (hval : ∀ m ∈ s.metrics, m.name.data.any isIllegalMetricRune = false) :
    ∀ c ∈ (encodeLogTailMetricsDelta now s).1.data,
      frameChar c = true ∧ c ≠ '"' ∧ c ≠ '\\' ∧ ¬(c < ' ') ∧ c ≠ '\x7f' := by
  intro c hc
  have h := encode_frameChars now s hval c hc
  exact ⟨h, frameChar_good c h⟩

/-- Witness for C5: in the frame encoded from a one-metric state with a
negative value, the first character (the record tag `N`) is in the
alphabet and is no quote, backslash or control character. -/
theorem c5_witness :
    frameChar 'N' = true ∧ 'N' ≠ '"' ∧ 'N' ≠ '\\' ∧ ¬('N' < ' ') ∧ 'N' ≠ '\x7f' := by
  refine c5_json_safety 1
    { metrics := [{ v := -9223372036854775808, name := "neg_2", typ := MType.gauge,
                    wireID := 0, lastNamed := 0, lastLogVal := 0 }],
      numWireID := 0, lastDelta := 0, sortedDirty := false, sorted := [] }
    ?_ 'N' ?_
  · intro m hm
    rcases List.mem_singleton.mp hm with rfl
    rfl
  · show 'N' ∈ (encodeLogTailMetricsDelta 1
      { metrics := [{ v := -9223372036854775808, name := "neg_2", typ := MType.gauge,
                      wireID := 0, lastNamed := 0, lastLogVal := 0 }],
        numWireID := 0, lastDelta := 0, sortedDirty := false, sorted := [] }).1.data
    rw [show (encodeLogTailMetricsDelta 1
      { metrics := [{ v := -9223372036854775808, name := "neg_2", typ := MType.gauge,
                      wireID := 0, lastNamed := 0, lastLogVal := 0 }],
        numWireID := 0, lastDelta := 0, sortedDirty := false, sorted := [] }).1 =
      writeName "neg_2" ++ writeValue 1 (-9223372036854775808) from rfl]
    exact List.mem_cons_self _ _

/-- C6: in every reachable state no two positions of the registry carry
the same nonzero wireID; a nonzero wireID (and the metric's name) is
preserved unchanged by every operation; and in a non-rate-limited encode
from a reachable state, a metric with a pending change and no wireID at
position `i` receives wireID `numWireID + (pending new metrics before i)
+ 1` while every other metric keeps its wireID — so fresh wireIDs exceed
`numWireID` (hence all previously assigned ones) and are handed out in
the order the encoder first observes a pending change, two pending new
metrics at `i < j` receiving wireIDs in that order. -/
theorem c6_wireID_lifecycle :
    (∀ ops : List Op, WireDistinct (run ops).metrics) ∧
    (∀ (s : State) (op : Op) (i : Nat), i < s.metrics.length →
      (s.metrics.getD i metric0).wireID ≠ 0 →
      i < (applyOp s op).metrics.length ∧
      ((applyOp s op).metrics.getD i metric0).wireID = (s.metrics.getD i metric0).wireID ∧
      ((applyOp s op).metrics.getD i metric0).name = (s.metrics.getD i metric0).name) ∧
    (∀ (ops : List Op) (now i : Nat),
      ¬((run ops).lastDelta ≠ 0 ∧ now - (run ops).lastDelta < minMetricEncodeInterval) →
      i < (run ops).metrics.length →
      (pendingNewB ((run ops).metrics.getD i metric0) = true →
        ((encodeLogTailMetricsDelta now (run ops)).2.metrics.getD i metric0).wireID =
          (run ops).numWireID + countNew ((run ops).metrics.take i) + 1) ∧
      (pendingNewB ((run ops).metrics.getD i metric0) = false →
        ((encodeLogTailMetricsDelta now (run ops)).2.metrics.getD i metric0).wireID =
          ((run ops).metrics.getD i metric0).wireID)) ∧
    (∀ (ops : List Op) (now i j : Nat),
      ¬((run ops).lastDelta ≠ 0 ∧ now - (run ops).lastDelta < minMetricEncodeInterval) →
      i < j → j < (run ops).metrics.length →
      pendingNewB ((run ops).metrics.getD i metric0) = true →
      pendingNewB ((run ops).metrics.getD j metric0) = true →
      (run ops).numWireID <
        ((encodeLogTailMetricsDelta now (run ops)).2.metrics.getD i metric0).wireID ∧
      ((encodeLogTailMetricsDelta now (run ops)).2.metrics.getD i metric0).wireID <
        ((encodeLogTailMetricsDelta now (run ops)).2.metrics.getD j metric0).wireID) := by
  refine ⟨fun ops => (inv_run ops).2.2.2, applyOp_wireID_persist, ?_, ?_⟩
  · intro ops now i hrl hi
    constructor
    · intro hp
      rw [encode_metrics_getD now (run ops) hrl i hi, encStep_wireID, if_pos hp]
    · intro hp
      rw [encode_metrics_getD now (run ops) hrl i hi, encStep_wireID, hp]
      rfl
  · intro ops now i j hrl hij hj hpi hpj
    have hi : i < (run ops).metrics.length := lt_trans hij hj
    rw [encode_metrics_getD now (run ops) hrl i hi,
      encode_metrics_getD now (run ops) hrl j hj,
      encStep_wireID, encStep_wireID, if_pos hpi, if_pos hpj]
    have hcnt := countP_take_lt pendingNewB metric0 (run ops).metrics i j hij hi hpi
    simp only [countNew]
    omega

/-- Witness for C6: after registering gauges `b` then `a` and setting
both, an encode assigns wireID 1 to `b` (first in iteration order) and
wireID 2 to `a`; a later operation leaves `b`'s wireID 1 unchanged. -/
theorem c6_witness :
    ((run [Op.publishOp "b" MType.gauge, Op.publishOp "a" MType.gauge,
        Op.setOp "b" 1, Op.setOp "a" 2]).numWireID <
      ((encodeLogTailMetricsDelta 1 (run [Op.publishOp "b" MType.gauge,
        Op.publishOp "a" MType.gauge, Op.setOp "b" 1,
        Op.setOp "a" 2])).2.metrics.getD 0 metric0).wireID ∧
     ((encodeLogTailMetricsDelta 1 (run [Op.publishOp "b" MType.gauge,
        Op.publishOp "a" MType.gauge, Op.setOp "b" 1,
        Op.setOp "a" 2])).2.metrics.getD 0 metric0).wireID <
      ((encodeLogTailMetricsDelta 1 (run [Op.publishOp "b" MType.gauge,
        Op.publishOp "a" MType.gauge, Op.setOp "b" 1,
        Op.setOp "a" 2])).2.metrics.getD 1 metric0).wireID) ∧
    ((applyOp (run [Op.publishOp "b" MType.gauge, Op.publishOp "a" MType.gauge,
        Op.setOp "b" 1, Op.setOp "a" 2, Op.encodeOp 1])
        (Op.addOp "a" 7)).metrics.getD 0 metric0).wireID =
      ((run [Op.publishOp "b" MType.gauge, Op.publishOp "a" MType.gauge,
        Op.setOp "b" 1, Op.setOp "a" 2, Op.encodeOp 1]).metrics.getD 0 metric0).wireID := by
  constructor
  · exact c6_wireID_lifecycle.2.2.2 [Op.publishOp "b" MType.gauge,
      Op.publishOp "a" MType.gauge, Op.setOp "b" 1, Op.setOp "a" 2] 1 0 1
      (by intro h; exact h.1 rfl) (by decide) (by decide) (by rfl) (by rfl)
  · exact (c6_wireID_lifecycle.2.1 (run [Op.publishOp "b" MType.gauge,
      Op.publishOp "a" MType.gauge, Op.setOp "b" 1, Op.setOp "a" 2, Op.encodeOp 1])
      (Op.addOp "a" 7) 0 (by decide) (by decide)).2.1

theorem newMetricPub_ok_of_valid (name : String) (typ : MType) (s : State)
    (hne : name ≠ "") (hval : name.data.any isIllegalMetricRune = false)
    (hdup : s.metrics.any (fun x => x.name = name) = false) :
    newMetricPub name typ s = Except.ok
      { s with
        metrics := s.metrics ++
          [{ v := 0, name := name, typ := typ, wireID := 0, lastNamed := 0, lastLogVal := 0 }],
        sortedDirty := true } := by
  unfold newMetricPub newUnpublished publish
  have h1 : ¬(name = "" ∨ name.data.any isIllegalMetricRune = true) := by
    rintro (h | h)
    · exact hne h
    · rw [hval] at h
      cases h
  rw [if_neg h1]
  dsimp only
  rw [if_neg hne]
  have h2 : ¬(s.metrics.any (fun x => x.name = name) = true) := by
    rw [hdup]
    exact Bool.false_ne_true
  rw [if_neg h2]

/-- C7: construct-then-register fails (with the panic modelled as an
error, leaving the caller's state untouched) exactly when the name is
empty, contains an illegal character, or duplicates a registered name;
on success the registry is exactly the old registry with the fresh
metric appended; and two registrations with distinct valid fresh names
both succeed and both names appear in the sorted listing. -/
theorem c7_registration (name : String) (typ : MType) (s : State) :
    ((∃ e, newMetricPub name typ s = Except.error e) ↔
      (name = "" ∨ name.data.any isIllegalMetricRune = true ∨
        s.metrics.any (fun x => x.name = name) = true)) ∧
    (∀ s2, newMetricPub name typ s = Except.ok s2 →
      s2.metrics = s.metrics ++
        [{ v := 0, name := name, typ := typ, wireID := 0, lastNamed := 0, lastLogVal := 0 }]) ∧
    (∀ (name2 : String) (typ2 : MType), name ≠ name2 →
      name ≠ "" → name.data.any isIllegalMetricRune = false →
      s.metrics.any (fun x => x.name = name) = false →
      name2 ≠ "" → name2.data.any isIllegalMetricRune = false →
      s.metrics.any (fun x => x.name = name2) = false →
      ∃ s2 s3, newMetricPub name typ s = Except.ok s2 ∧
        newMetricPub name2 typ2 s2 = Except.ok s3 ∧
        name ∈ (metricsFn s3).1 ∧ name2 ∈ (metricsFn s3).1) := by
  refine ⟨⟨?_, ?_⟩, ?_, ?_⟩
  · rintro ⟨e, he⟩
    by_contra hno
    push_neg at hno
    obtain ⟨hne, hnb, hnc⟩ := hno
    rw [newMetricPub_ok_of_valid name typ s hne (Bool.eq_false_iff.mpr hnb)
      (Bool.eq_false_iff.mpr hnc)] at he
    exact Except.noConfusion he
  · intro h
    rcases h with h | h | h
    · exact ⟨_, by unfold newMetricPub newUnpublished; rw [if_pos (Or.inl h)]⟩
    · exact ⟨_, by unfold newMetricPub newUnpublished; rw [if_pos (Or.inr h)]⟩
    · by_cases h1 : name = "" ∨ name.data.any isIllegalMetricRune = true
      · exact ⟨_, by unfold newMetricPub newUnpublished; rw [if_pos h1]⟩
      · refine ⟨"duplicate metric " ++ name, ?_⟩
        unfold newMetricPub newUnpublished publish
        rw [if_neg h1]
        dsimp only
        have hne : ¬name = "" := fun x => h1 (Or.inl x)
        rw [if_neg hne, if_pos h]
  · intro s2 h
    obtain ⟨rfl, -, -⟩ := newMetricPub_ok name typ s s2 h
    rfl
  · intro name2 typ2 hneq hn1 hv1 hd1 hn2 hv2 hd2
    have he1 := newMetricPub_ok_of_valid name typ s hn1 hv1 hd1
    have hd2b : (s.metrics ++
        [({ v := 0, name := name, typ := typ, wireID := 0, lastNamed := 0,
            lastLogVal := 0 } : Metric)]).any (fun x => x.name = name2) = false := by
      rw [List.any_append, hd2]
      simp [hneq]
    have he2 := newMetricPub_ok_of_valid name2 typ2
      { s with
        metrics := s.metrics ++
          [{ v := 0, name := name, typ := typ, wireID := 0, lastNamed := 0, lastLogVal := 0 }],
        sortedDirty := true } hn2 hv2 hd2b
    refine ⟨_, _, he1, he2, ?_, ?_⟩ <;>
      · unfold metricsFn
        rw [if_pos rfl]
        refine ((List.perm_insertionSort _ _).mem_iff).mpr ?_
        simp [namesOf]

/-- Witness for C7: registering `has-dash` fails; registering
`valid_Name123` and then `other2` both succeed and both names appear in
the listing. -/
theorem c7_witness :
    (∃ e, newMetricPub "has-dash" MType.gauge initState = Except.error e) ∧
    (∃ s2 s3, newMetricPub "valid_Name123" MType.counter initState = Except.ok s2 ∧
      newMetricPub "other2" MType.gauge s2 = Except.ok s3 ∧
      "valid_Name123" ∈ (metricsFn s3).1 ∧ "other2" ∈ (metricsFn s3).1) := by
  constructor
  · exact (c7_registration "has-dash" MType.gauge initState).1.mpr
      (Or.inr (Or.inl (by rfl)))
  · exact (c7_registration "valid_Name123" MType.counter initState).2.2
      "other2" MType.gauge (by decide) (by decide) (by rfl) (by rfl)
      (by decide) (by rfl) (by rfl)

/-- C8: the listing operation, run from any reachable state, returns a
permutation of the registry (each registered metric exactly once, no
duplicates) in ascending name order — whether it rebuilds the dirty
cache or serves the clean cached ordering. -/
theorem c8_list_sorted (ops : List Op) :
    ((listMetrics (run ops)).1).Perm (run ops).metrics ∧
    (namesOf (listMetrics (run ops)).1).Sorted (fun a b => a ≤ b) ∧
    ((listMetrics (run ops)).1).Nodup := by
  have h := inv_run ops
  rw [listMetrics_eq _ h]
  refine ⟨sortMetrics_perm _, ?_, ?_⟩
  · rw [namesOf_sortMetrics]
    exact sortNames_sorted _
  · exact ((sortMetrics_perm _).nodup_iff).mpr (List.Nodup.of_map _ h.1)

/-- C9: the Prometheus exposition, run from any reachable state, leaves
the registry, the wireID counter and the encoder's last-invocation time
untouched, and prints, for each registered metric in ascending name
order, a type-declaration line (`gauge` or `counter` according to its
kind) followed by a name-and-current-value line. -/
theorem c9_prometheus_exposition (ops : List Op) :
    (writePrometheusExpositionFormat (run ops)).2.metrics = (run ops).metrics ∧
    (writePrometheusExpositionFormat (run ops)).2.numWireID = (run ops).numWireID ∧
    (writePrometheusExpositionFormat (run ops)).2.lastDelta = (run ops).lastDelta ∧
    typeName MType.gauge = "gauge" ∧ typeName MType.counter = "counter" ∧
    (writePrometheusExpositionFormat (run ops)).1 =
      String.join ((sortMetrics (run ops).metrics).map (fun m =>
        "# TYPE " ++ m.name ++ " " ++ typeName m.typ ++ "\n" ++
        m.name ++ " " ++ toString m.v ++ "\n")) := by
  have h := inv_run ops
  refine ⟨metricsFn_metrics _, metricsFn_numWireID _, metricsFn_lastDelta _, rfl, rfl, ?_⟩
  show String.join ((metricsFn (run ops)).1.map (fun n =>
    match findMetric (metricsFn (run ops)).2 n with
    | some m => promLine m
    | none => "")) = _
  unfold findMetric
  simp only [metricsFn_metrics]
  rw [metricsFn_names _ h, ← namesOf_sortMetrics]
  rw [map_find_names (run ops).metrics (sortMetrics (run ops).metrics) promLine h.1
    (fun m hm => (sortMetrics_perm _).mem_iff.mp hm)]
  rfl

/-- C4: for a freshly registered counter, `Add 5` then a first encode at
a nonzero time yields the frame `name record + absolute value record`,
whose decoded effect starting from zero reconstructs 5; `Add 3` and a
second encode at least 15 seconds later but within the 4-hour renaming
window yields a frame that is a single increment record, and decoding
both frames in order reconstructs 8. -/
theorem c4_round_trip (t1 t2 : Nat) (h1 : t1 ≠ 0)
    (h2 : minMetricEncodeInterval ≤ t2 - t1) (h3 : t2 - t1 ≤ metricLogNameFrequency)
    (s1 : State)
    (hpub : newMetricPub "foo" MType.counter initState = Except.ok s1) :
    (encodeLogTailMetricsDelta t1 (addByName s1 "foo" 5)).1 =
      writeName "foo" ++ writeValue 1 5 ∧
    decodeAt [(encodeLogTailMetricsDelta t1 (addByName s1 "foo" 5)).1] 1 = some 5 ∧
    (encodeLogTailMetricsDelta t2 (addByName
      (encodeLogTailMetricsDelta t1 (addByName s1 "foo" 5)).2 "foo" 3)).1 =
      writeDelta 1 3 ∧
    decodeAt [(encodeLogTailMetricsDelta t1 (addByName s1 "foo" 5)).1,
      (encodeLogTailMetricsDelta t2 (addByName
        (encodeLogTailMetricsDelta t1 (addByName s1 "foo" 5)).2 "foo" 3)).1] 1 =
      some 8 := by
  have hs1 : s1 =
      { metrics := [{ v := 0, name := "foo", typ := MType.counter,
                      wireID := 0, lastNamed := 0, lastLogVal := 0 }],
        numWireID := 0, lastDelta := 0, sortedDirty := true, sorted := [] } := by
    rw [show newMetricPub "foo" MType.counter initState = Except.ok
      { metrics := [{ v := 0, name := "foo", typ := MType.counter,
                      wireID := 0, lastNamed := 0, lastLogVal := 0 }],
        numWireID := 0, lastDelta := 0, sortedDirty := true, sorted := [] } from rfl] at hpub
    injection hpub with h
    exact h.symm
  subst hs1
  have hstep : encStep t2
      { v := 8, name := "foo", typ := MType.counter,
        wireID := 1, lastNamed := t1, lastLogVal := 5 } 1 =
      ({ v := 8, name := "foo", typ := MType.counter,
         wireID := 1, lastNamed := t1, lastLogVal := 8 }, 1, writeDelta 1 3) := by
    rw [encStep_inc_case t2
      { v := 8, name := "foo", typ := MType.counter,
        wireID := 1, lastNamed := t1, lastLogVal := 5 } 1 (by dsimp only; decide) ?hn]
    · rfl
    case hn =>
      rintro (h | h) <;> dsimp only at h
      · exact h1 h
      · exact absurd h (not_lt.mpr h3)
  have key2 : encodeLogTailMetricsDelta t2 (addByName
      (encodeLogTailMetricsDelta t1 (addByName
        { metrics := [{ v := 0, name := "foo", typ := MType.counter,
                        wireID := 0, lastNamed := 0, lastLogVal := 0 }],
          numWireID := 0, lastDelta := 0, sortedDirty := true, sorted := [] }
        "foo" 5)).2 "foo" 3) =
      (writeDelta 1 3,
       { metrics := [{ v := 8, name := "foo", typ := MType.counter,
                       wireID := 1, lastNamed := t1, lastLogVal := 8 }],
         numWireID := 1, lastDelta := t2, sortedDirty := true, sorted := [] }) := by
    show encodeLogTailMetricsDelta t2
      { metrics := [{ v := 8, name := "foo", typ := MType.counter,
                      wireID := 1, lastNamed := t1, lastLogVal := 5 }],
        numWireID := 1, lastDelta := t1, sortedDirty := true, sorted := [] } = _
    rw [encode_not_limited t2
      { metrics := [{ v := 8, name := "foo", typ := MType.counter,
                      wireID := 1, lastNamed := t1, lastLogVal := 5 }],
        numWireID := 1, lastDelta := t1, sortedDirty := true, sorted := [] } ?hrl]
    · have hl : encList t2
          [{ v := 8, name := "foo", typ := MType.counter,
             wireID := 1, lastNamed := t1, lastLogVal := 5 }] 1 =
          ([{ v := 8, name := "foo", typ := MType.counter,
              wireID := 1, lastNamed := t1, lastLogVal := 8 }], 1,
           writeDelta 1 3 ++ "") := by
        rw [encList_cons, hstep]
        rfl
      rw [show encList t2 (State.metrics
          { metrics := [{ v := 8, name := "foo", typ := MType.counter,
                          wireID := 1, lastNamed := t1, lastLogVal := 5 }],
            numWireID := 1, lastDelta := t1, sortedDirty := true, sorted := [] })
          1 = ([{ v := 8, name := "foo", typ := MType.counter,
                  wireID := 1, lastNamed := t1, lastLogVal := 8 }], 1,
               writeDelta 1 3 ++ "") from hl]
      rfl
    case hrl =>
      rintro ⟨hne, hlt⟩
      dsimp only at hlt
      exact absurd hlt (not_lt.mpr h2)
  refine ⟨rfl, rfl, ?_, ?_⟩
  · rw [key2]
  · rw [key2]
    rfl

/-- Witness for C4: the concrete timestamps 1 and 15000000001 (exactly
the 15-second minimum apart, within the renaming window). -/
theorem c4_witness :
    (encodeLogTailMetricsDelta 1 (addByName
      { metrics := [{ v := 0, name := "foo", typ := MType.counter,
                      wireID := 0, lastNamed := 0, lastLogVal := 0 }],
        numWireID := 0, lastDelta := 0, sortedDirty := true, sorted := [] }
      "foo" 5)).1 = writeName "foo" ++ writeValue 1 5 ∧
    decodeAt [(encodeLogTailMetricsDelta 1 (addByName
      { metrics := [{ v := 0, name := "foo", typ := MType.counter,
                      wireID := 0, lastNamed := 0, lastLogVal := 0 }],
        numWireID := 0, lastDelta := 0, sortedDirty := true, sorted := [] }
      "foo" 5)).1] 1 = some 5 ∧
    (encodeLogTailMetricsDelta 15000000001 (addByName
      (encodeLogTailMetricsDelta 1 (addByName
        { metrics := [{ v := 0, name := "foo", typ := MType.counter,
                        wireID := 0, lastNamed := 0, lastLogVal := 0 }],
          numWireID := 0, lastDelta := 0, sortedDirty := true, sorted := [] }
        "foo" 5)).2 "foo" 3)).1 = writeDelta 1 3 ∧
    decodeAt [(encodeLogTailMetricsDelta 1 (addByName
      { metrics := [{ v := 0, name := "foo", typ := MType.counter,
                      wireID := 0, lastNamed := 0, lastLogVal := 0 }],
        numWireID := 0, lastDelta := 0, sortedDirty := true, sorted := [] }
      "foo" 5)).1,
      (encodeLogTailMetricsDelta 15000000001 (addByName
        (encodeLogTailMetricsDelta 1 (addByName
          { metrics := [{ v := 0, name := "foo", typ := MType.counter,
                          wireID := 0, lastNamed := 0, lastLogVal := 0 }],
            numWireID := 0, lastDelta := 0, sortedDirty := true, sorted := [] }
          "foo" 5)).2 "foo" 3)).1] 1 = some 8 :=
  c4_round_trip 1 15000000001 (by decide) (by decide) (by decide) _ rfl

example : writeHexVarint 3 = "06" := rfl
example : writeHexVarint (-1) = "01" := rfl
example : writeHexVarint 5 = "0a" := rfl
example : writeHexVarint 300 = "d804" := rfl
example : writeName "foo" ++ writeValue 1 5 = "N06fooS020a" := rfl
example : writeDelta 1 3 = "I0206" := rfl
